import Mathlib

/-!
Verification of the path-addressing and nested-flattening utilities of
`brainstorm/utils.py`: `flatten`, `convert_to_nested_indices`, `get_by_path`,
`get_normalized_path` and `flatten_keys`.

Python strings are modelled as lists of characters (`Str`), nested Python
sequences as the inductive `NSeq`, nested dictionaries as `NMap` (an ordered
association list, since Python dicts preserve insertion order), and the
exceptions raised by the functions as explicit error values.
-/

namespace Brainstorm

/-- A Python string, modelled as its list of characters. -/
abbrev Str : Type := List Char

/-- The characters of a Lean string literal, used to write concrete inputs. -/
def pstr (s : String) : Str := s.data

/-- An element of a nested Python sequence: a leaf value or a nested list. -/
inductive NSeq (α : Type) where
  | leaf : α → NSeq α
  | node : List (NSeq α) → NSeq α

/-- `flatten` of utils.py: iterate a container and, for each element, recurse
into it when it is itself a list/tuple, otherwise yield it as a leaf.  The
Python generator is modelled as the materialized list it yields. -/
def flatten {α : Type} : List (NSeq α) → List α
  | [] => []
  | NSeq.leaf a :: rest => a :: flatten rest
  | NSeq.node l :: rest => flatten l ++ flatten rest

/-- `convert_to_nested_indices` of utils.py.  The single mutable counter cell
`start_idx` shared by all recursive calls is threaded as explicit state: the
second component of the result is the counter after the call. -/
def convert_to_nested_indices {α : Type} : List (NSeq α) → Nat → List (NSeq Nat) × Nat
  | [], n => ([], n)
  | NSeq.leaf _ :: rest, n =>
      (NSeq.leaf n :: (convert_to_nested_indices rest (n + 1)).1,
       (convert_to_nested_indices rest (n + 1)).2)
  | NSeq.node l :: rest, n =>
      (NSeq.node (convert_to_nested_indices l n).1 ::
         (convert_to_nested_indices rest (convert_to_nested_indices l n).2).1,
       (convert_to_nested_indices rest (convert_to_nested_indices l n).2).2)

/-- The leaves of one nested element, depth first, left to right. -/
def NSeq.leaves {α : Type} : NSeq α → List α
  | NSeq.leaf a => [a]
  | NSeq.node l => l.attach.flatMap fun t => NSeq.leaves t.1
decreasing_by
  simp_wf
  have h := List.sizeOf_lt_of_mem t.2
  omega

theorem leaves_node {α : Type} (l : List (NSeq α)) :
    (NSeq.node l).leaves = l.flatMap NSeq.leaves := by
  rw [NSeq.leaves.eq_2]
  rw [List.flatMap_def, List.attach_map_val l NSeq.leaves, ← List.flatMap_def]

theorem flatten_eq_leaves {α : Type} (c : List (NSeq α)) :
    flatten c = c.flatMap NSeq.leaves := by
  induction c using flatten.induct with
  | case1 => simp [flatten]
  | case2 a rest ih => simp [flatten, NSeq.leaves.eq_1, ih]
  | case3 l rest ih1 ih2 => simp [flatten, leaves_node, ih1, ih2]

theorem convert_to_nested_indices_spec {α : Type} (c : List (NSeq α)) (n : Nat) :
    flatten (convert_to_nested_indices c n).1 = List.range' n (flatten c).length ∧
    (convert_to_nested_indices c n).2 = n + (flatten c).length := by
  induction c, n using convert_to_nested_indices.induct with
  | case1 n => simp [flatten, convert_to_nested_indices]
  | case2 a rest n ih =>
      refine ⟨?_, ?_⟩
      · simp only [convert_to_nested_indices, flatten, List.length_cons,
          List.range'_succ, ih.1]
      · simp only [convert_to_nested_indices, flatten, List.length_cons, ih.2]
        omega
  | case3 l rest n ih1 ih2 =>
      obtain ⟨ih1a, ih1b⟩ := ih1
      rw [ih1b] at ih2
      obtain ⟨ih2a, ih2b⟩ := ih2
      refine ⟨?_, ?_⟩
      · simp only [convert_to_nested_indices, flatten, List.length_append,
          ih1a, ih1b, ih2a]
        rw [Nat.add_comm (flatten l).length (flatten rest).length]
        have h := List.range'_append n (flatten l).length (flatten rest).length 1
        rw [Nat.one_mul] at h
        exact h
      · simp only [convert_to_nested_indices, flatten, List.length_append, ih1b, ih2b]
        omega

/-- C1: flattening the output of `convert_to_nested_indices` applied to `c`
(with the counter started at 0, as the Python default does) yields exactly
`0, 1, ..., N-1` where `N` is the number of leaves of `c`, i.e. the length of
`flatten c`: the indices are assigned in the same depth-first, left-to-right
order that `flatten` uses. -/
theorem flatten_convert_to_nested_indices {α : Type} (c : List (NSeq α)) :
    flatten (convert_to_nested_indices c 0).1 = List.range (flatten c).length := by
  rw [List.range_eq_range']
  exact (convert_to_nested_indices_spec c 0).1

/-- C8: `flatten` yields exactly the leaves of its input in depth-first,
left-to-right order (it recurses into every element that is itself a sequence
and emits every other element); on `[[1,2],[3,[4,5]],6]` it yields
`[1,2,3,4,5,6]`; and, the embedding being a pure function, two calls on the
same input yield the same sequence. -/
theorem flatten_leaves_order :
    (∀ (α : Type) (c : List (NSeq α)), flatten c = c.flatMap NSeq.leaves) ∧
    flatten [NSeq.node [NSeq.leaf 1, NSeq.leaf 2],
             NSeq.node [NSeq.leaf 3, NSeq.node [NSeq.leaf 4, NSeq.leaf 5]],
             NSeq.leaf (6 : Int)] = [1, 2, 3, 4, 5, 6] ∧
    (∀ (α : Type) (c : List (NSeq α)), flatten c = flatten c) := by
  refine ⟨fun α c => flatten_eq_leaves c, ?_, fun α c => rfl⟩
  simp [flatten]

/-- `s.split('.')` of Python: the result always has at least one (possibly
empty) part; a separator at either end or two adjacent separators produce
empty parts. -/
def splitDot : Str → List Str
  | [] => [[]]
  | c :: rest =>
      if c = '.' then [] :: splitDot rest
      else
        match splitDot rest with
        | [] => [[c]]
        | s :: ss => (c :: s) :: ss

/-- `".".join(parts)` of Python. -/
def joinDot : List Str → Str
  | [] => []
  | [s] => s
  | s :: rest => s ++ '.' :: joinDot rest

/-- `a.replace("..", "@")` of Python: left-to-right, non-overlapping
replacement of the two-character substring `..` by `@`. -/
def replaceDD : Str → Str
  | [] => []
  | [c] => [c]
  | c1 :: c2 :: rest =>
      if c1 = '.' then
        if c2 = '.' then '@' :: replaceDD rest
        else c1 :: replaceDD (c2 :: rest)
      else c1 :: replaceDD (c2 :: rest)

/-- The inner `while p.startswith('@')` loop of `get_normalized_path`: pop the
working stack once per leading marker and strip that marker.  The stack is
held most-recent-first (Python appends to and pops from the end of its list).
`none` models the IndexError raised by `pop()` on an empty list. -/
def stripMarkers : Str → List Str → Option (Str × List Str)
  | [], stack => some ([], stack)
  | c :: p, stack =>
      if c = '@' then
        match stack with
        | [] => none
        | _ :: stack' => stripMarkers p stack'
      else some (c :: p, stack)

/-- The main `for p in path_parts` loop of `get_normalized_path`, returning
the final working stack (most-recent-first). -/
def normLoop : List Str → List Str → Option (List Str)
  | [], stack => some stack
  | p :: rest, stack =>
      match stripMarkers p stack with
      | none => none
      | some (p', stack') => normLoop rest (p' :: stack')

/-- The three failure modes of `get_normalized_path`: the two `assert`
statements and the IndexError from popping an empty stack. -/
inductive PathSynErr where
  | markerInInput : PathSynErr
  | emptySegment : PathSynErr
  | popUnderflow : PathSynErr
deriving DecidableEq

/-- The `path_parts` list `get_normalized_path` builds: each fragment has
`..` replaced by `@` and is then split on `.`. -/
def pathPartsOf (args : List Str) : List Str :=
  args.flatMap fun a => splitDot (replaceDD a)

/-- `get_normalized_path` of utils.py. -/
def get_normalized_path (args : List Str) : Except PathSynErr Str :=
  if ∃ a ∈ args, '@' ∈ a then Except.error PathSynErr.markerInInput
  else if [] ∈ pathPartsOf args then Except.error PathSynErr.emptySegment
  else
    match normLoop (pathPartsOf args) [] with
    | none => Except.error PathSynErr.popUnderflow
    | some stack => Except.ok (joinDot stack.reverse)

/-- C4: the working stack of `get_normalized_path` persists across fragments,
so a relative pop contributed by a later fragment removes a segment
contributed by an earlier one: `["a","b","c"] ↦ "a.b.c"`,
`["a.b","..c"] ↦ "a.c"` and `["a","..b"] ↦ "b"`. -/
theorem get_normalized_path_cross_fragment_pops :
    get_normalized_path [pstr "a", pstr "b", pstr "c"] = Except.ok (pstr "a.b.c") ∧
    get_normalized_path [pstr "a.b", pstr "..c"] = Except.ok (pstr "a.c") ∧
    get_normalized_path [pstr "a", pstr "..b"] = Except.ok (pstr "b") := by
  refine ⟨?_, ?_, ?_⟩ <;> rfl

/-- An identifier-like path segment: nonempty, containing neither the
separator nor the reserved marker character. -/
def isSeg (s : Str) : Prop := s ≠ [] ∧ ∀ c ∈ s, c ≠ '.' ∧ c ≠ '@'

instance (s : Str) : Decidable (isSeg s) := by
  unfold isSeg
  infer_instance

/-- The CanonicalPath invariant of the spec: nonempty, not starting or ending
with the separator, no marker character anywhere, and every dot-separated
segment nonempty. -/
def isCanonicalPath (r : Str) : Prop :=
  r ≠ [] ∧ r.head? ≠ some '.' ∧ r.getLast? ≠ some '.' ∧ '@' ∉ r ∧
    ∀ s ∈ splitDot r, s ≠ []

/-- A fragment in which the `..` marker occurs only as a run of leading
level-up markers: `k` markers followed by a nonempty dot-separated list of
identifier-like segments. -/
def goodFrag (a : Str) : Prop :=
  ∃ (k : Nat) (segs : List Str), segs ≠ [] ∧ (∀ s ∈ segs, isSeg s) ∧
    a = List.replicate (2 * k) '.' ++ joinDot segs

theorem replaceDD_cons_of_ne {c : Char} (x : Str) (hc : c ≠ '.') :
    replaceDD (c :: x) = c :: replaceDD x := by
  cases x with
  | nil => rfl
  | cons c2 rest => simp [replaceDD, hc]

theorem replaceDD_dotfree_append (s t : Str) (hs : ∀ c ∈ s, c ≠ '.') :
    replaceDD (s ++ t) = s ++ replaceDD t := by
  induction s with
  | nil => rfl
  | cons c s' ih =>
      rw [List.cons_append, replaceDD_cons_of_ne _ (hs c (by simp)),
        ih (fun c hc => hs c (by simp [hc]))]
      rfl

theorem replaceDD_dot_cons (x : Str) (hx : x.head? ≠ some '.') :
    replaceDD ('.' :: x) = '.' :: replaceDD x := by
  cases x with
  | nil => rfl
  | cons c2 rest =>
      have : c2 ≠ '.' := by simpa using hx
      simp [replaceDD, this]

theorem replaceDD_markers (k : Nat) (x : Str) (_hx : x.head? ≠ some '.') :
    replaceDD (List.replicate (2 * k) '.' ++ x) =
      List.replicate k '@' ++ replaceDD x := by
  induction k with
  | zero => simp
  | succ k ih =>
      have h2 : 2 * (k + 1) = (2 * k) + 1 + 1 := by ring
      rw [h2, List.replicate_succ, List.replicate_succ, List.cons_append,
        List.cons_append]
      show replaceDD ('.' :: '.' :: (List.replicate (2 * k) '.' ++ x)) = _
      rw [show ∀ y, replaceDD ('.' :: '.' :: y) = '@' :: replaceDD y from
        fun y => by simp [replaceDD], ih, List.replicate_succ, List.cons_append]

theorem joinDot_head? (t : Str) (rest : List Str) (ht : t ≠ []) :
    (joinDot (t :: rest)).head? = t.head? := by
  cases rest with
  | nil => rfl
  | cons u rest' =>
      show (t ++ '.' :: joinDot (u :: rest')).head? = t.head?
      cases t with
      | nil => exact absurd rfl ht
      | cons c t' => rfl

theorem replaceDD_joinDot (segs : List Str) (h : ∀ s ∈ segs, isSeg s) :
    replaceDD (joinDot segs) = joinDot segs := by
  induction segs with
  | nil => rfl
  | cons s rest ih =>
      have hs : isSeg s := h s (by simp)
      have hdot : ∀ c ∈ s, c ≠ '.' := fun c hc => (hs.2 c hc).1
      cases rest with
      | nil =>
          show replaceDD s = s
          have := replaceDD_dotfree_append s [] hdot
          simpa [replaceDD] using this
      | cons t rest' =>
          show replaceDD (s ++ '.' :: joinDot (t :: rest')) = s ++ '.' :: joinDot (t :: rest')
          rw [replaceDD_dotfree_append _ _ hdot]
          have ht : isSeg t := h t (by simp)
          have hhead : (joinDot (t :: rest')).head? ≠ some '.' := by
            rw [joinDot_head? t rest' ht.1]
            cases t with
            | nil => exact absurd rfl ht.1
            | cons c t' =>
                have := (ht.2 c (by simp)).1
                simpa using this
          rw [replaceDD_dot_cons _ hhead, ih (fun u hu => h u (by simp [hu]))]

theorem splitDot_dotfree (s : Str) (hs : ∀ c ∈ s, c ≠ '.') :
    splitDot s = [s] := by
  induction s with
  | nil => rfl
  | cons c s' ih =>
      have hc : c ≠ '.' := hs c (by simp)
      have ih' := ih (fun u hu => hs u (by simp [hu]))
      simp [splitDot, hc, ih']

theorem splitDot_dotfree_dot (s y : Str) (hs : ∀ c ∈ s, c ≠ '.') :
    splitDot (s ++ '.' :: y) = s :: splitDot y := by
  induction s with
  | nil => simp [splitDot]
  | cons c s' ih =>
      have hc : c ≠ '.' := hs c (by simp)
      have ih' := ih (fun u hu => hs u (by simp [hu]))
      simp [splitDot, hc, ih']

theorem splitDot_joinDot (segs : List Str) (hne : segs ≠ [])
    (h : ∀ s ∈ segs, ∀ c ∈ s, c ≠ '.') :
    splitDot (joinDot segs) = segs := by
  induction segs with
  | nil => exact absurd rfl hne
  | cons s rest ih =>
      cases rest with
      | nil => exact splitDot_dotfree s (h s (by simp))
      | cons t rest' =>
          show splitDot (s ++ '.' :: joinDot (t :: rest')) = _
          rw [splitDot_dotfree_dot s _ (h s (by simp)),
            ih (by simp) (fun u hu c hc => h u (by simp [hu]) c hc)]

theorem splitDot_dotfree_append (pre x : Str) (s : Str) (ss : List Str)
    (hpre : ∀ c ∈ pre, c ≠ '.') (hx : splitDot x = s :: ss) :
    splitDot (pre ++ x) = (pre ++ s) :: ss := by
  induction pre with
  | nil => simpa using hx
  | cons c pre' ih =>
      have hc : c ≠ '.' := hpre c (by simp)
      have ih' := ih (fun u hu => hpre u (by simp [hu]))
      simp [splitDot, hc, ih']

/-- The number of leading marker characters of a part. -/
def leadMarkers : Str → Nat
  | [] => 0
  | c :: p => if c = '@' then leadMarkers p + 1 else 0

theorem stripMarkers_eq (p : Str) : ∀ stack : List Str,
    stripMarkers p stack =
      if stack.length < leadMarkers p then none
      else some (p.drop (leadMarkers p), stack.drop (leadMarkers p)) := by
  induction p with
  | nil => intro stack; simp [stripMarkers, leadMarkers]
  | cons c p' ih =>
      intro stack
      by_cases hc : c = '@'
      · subst hc
        cases stack with
        | nil => simp [stripMarkers, leadMarkers]
        | cons x stack' =>
            rw [show stripMarkers ('@' :: p') (x :: stack') = stripMarkers p' stack'
              from by simp [stripMarkers], ih stack']
            simp [leadMarkers, Nat.succ_lt_succ_iff]
      · simp [stripMarkers, leadMarkers, hc]

/-- A part of the shape produced by a good fragment: leading markers followed
by one identifier-like segment. -/
def goodPart (p : Str) : Prop :=
  ∃ (m : Nat) (s : Str), isSeg s ∧ p = List.replicate m '@' ++ s

theorem leadMarkers_markers (m : Nat) (s : Str) (hs : s.head? ≠ some '@') :
    leadMarkers (List.replicate m '@' ++ s) = m := by
  induction m with
  | zero =>
      cases s with
      | nil => rfl
      | cons c s' =>
          have : c ≠ '@' := by simpa using hs
          simp [leadMarkers, this]
  | succ m ih => simp [List.replicate_succ, leadMarkers, ih]

theorem stripMarkers_goodPart (m : Nat) (s : Str) (stack : List Str)
    (hs : s.head? ≠ some '@') (hm : m ≤ stack.length) :
    stripMarkers (List.replicate m '@' ++ s) stack = some (s, stack.drop m) := by
  rw [stripMarkers_eq, leadMarkers_markers m s hs, if_neg (by omega)]
  have hdrop : (List.replicate m '@' ++ s).drop m = s := by
    rw [List.drop_append_of_le_length (by simp)]
    simp
  rw [hdrop]

theorem isSeg_head_not_marker {s : Str} (hs : isSeg s) : s.head? ≠ some '@' := by
  cases s with
  | nil => simp
  | cons c s' =>
      have := (hs.2 c (by simp)).2
      simpa using this

/-- Success of `normLoop` on good parts keeps every stack entry an
identifier-like segment, and the stack can only end empty if it started empty
and there were no parts (every processed part pushes one segment). -/
theorem normLoop_good (parts : List Str) : ∀ stack : List Str,
    (∀ p ∈ parts, goodPart p) → (∀ s ∈ stack, isSeg s) →
    ∀ stack', normLoop parts stack = some stack' →
    (∀ s ∈ stack', isSeg s) ∧ (stack' = [] → parts = [] ∧ stack = []) := by
  induction parts with
  | nil =>
      intro stack _ hstack stack' h
      have : stack = stack' := by simpa [normLoop] using h
      exact ⟨this ▸ hstack, fun h' => ⟨rfl, this ▸ h'⟩⟩
  | cons p rest ih =>
      intro stack hparts hstack stack' h
      obtain ⟨m, s, hseg, rfl⟩ := hparts p (by simp)
      rw [normLoop] at h
      by_cases hm : m ≤ stack.length
      · rw [stripMarkers_goodPart m s stack (isSeg_head_not_marker hseg) hm] at h
        have hres := ih (s :: stack.drop m)
          (fun q hq => hparts q (by simp [hq]))
          (by
            intro u hu
            rcases List.mem_cons.mp hu with h1 | h1
            · exact h1 ▸ hseg
            · exact hstack u (List.drop_subset _ _ h1))
          stack' h
        exact ⟨hres.1, fun h' => absurd (hres.2 h').2 (by simp)⟩
      · rw [stripMarkers_eq, leadMarkers_markers m s (isSeg_head_not_marker hseg),
          if_pos (by omega)] at h
        exact absurd h (by simp)

theorem mem_of_getLast?_eq {α : Type} : ∀ {l : List α} {a : α},
    l.getLast? = some a → a ∈ l
  | [], _, h => by simp at h
  | [x], a, h => by
      have : x = a := by simpa using h
      simp [this]
  | x :: y :: t, a, h => by
      rw [List.getLast?_cons_cons] at h
      exact List.mem_cons_of_mem x (mem_of_getLast?_eq h)

theorem joinDot_ne_nil (s : Str) (rest : List Str) (hs : s ≠ []) :
    joinDot (s :: rest) ≠ [] := by
  cases rest with
  | nil => exact hs
  | cons t rest' => exact List.append_ne_nil_of_left_ne_nil hs _

theorem joinDot_getLast_ne_dot : ∀ segs : List Str,
    (∀ s ∈ segs, isSeg s) → segs ≠ [] → (joinDot segs).getLast? ≠ some '.'
  | [], _, hne => absurd rfl hne
  | [s], h, _ => by
      intro hlast
      have hs := h s (by simp)
      exact absurd rfl ((hs.2 '.' (mem_of_getLast?_eq hlast)).1 ·)
  | s :: t :: r, h, _ => by
      show (s ++ '.' :: joinDot (t :: r)).getLast? ≠ some '.'
      rw [List.getLast?_append]
      have htr : joinDot (t :: r) ≠ [] := joinDot_ne_nil t r (h t (by simp)).1
      have : ('.' :: joinDot (t :: r)).getLast? = (joinDot (t :: r)).getLast? := by
        cases hj : joinDot (t :: r) with
        | nil => exact absurd hj htr
        | cons c j' => rw [List.getLast?_cons_cons]
      rw [this]
      have ih := joinDot_getLast_ne_dot (t :: r)
        (fun u hu => h u (by simp [hu])) (by simp)
      cases hj : (joinDot (t :: r)).getLast? with
      | none => exact absurd hj (by simp [List.getLast?_eq_none_iff, htr])
      | some c =>
          have : c ≠ '.' := by intro hc; exact ih (hc ▸ hj)
          simpa [Option.or] using this

theorem joinDot_no_marker : ∀ segs : List Str,
    (∀ s ∈ segs, ∀ c ∈ s, c ≠ '@') → '@' ∉ joinDot segs
  | [], _ => by simp [joinDot]
  | [s], h => fun hm => h s (by simp) '@' hm rfl
  | s :: t :: r, h => by
      show '@' ∉ s ++ '.' :: joinDot (t :: r)
      intro hm
      rcases List.mem_append.mp hm with h1 | h1
      · exact h s (by simp) '@' h1 rfl
      · rcases List.mem_cons.mp h1 with h2 | h2
        · exact absurd h2.symm (by decide)
        · exact joinDot_no_marker (t :: r) (fun u hu => h u (by simp [hu])) h2

theorem joinDot_canonical (segs : List Str) (hne : segs ≠ [])
    (h : ∀ s ∈ segs, isSeg s) : isCanonicalPath (joinDot segs) := by
  obtain ⟨s, rest, rfl⟩ : ∃ s rest, segs = s :: rest := by
    cases segs with
    | nil => exact absurd rfl hne
    | cons s rest => exact ⟨s, rest, rfl⟩
  have hs := h s (by simp)
  refine ⟨joinDot_ne_nil s rest hs.1, ?_, joinDot_getLast_ne_dot _ h (by simp),
    joinDot_no_marker _ (fun u hu c hc => (h u hu).2 c hc |>.2), ?_⟩
  · rw [joinDot_head? s rest hs.1]
    cases s with
    | nil => exact absurd rfl hs.1
    | cons c s' =>
        have := (hs.2 c (by simp)).1
        simpa using this
  · rw [splitDot_joinDot _ (by simp) (fun u hu c hc => ((h u hu).2 c hc).1)]
    exact fun u hu => (h u hu).1

theorem splitDot_ne_nil : ∀ s : Str, splitDot s ≠ []
  | [] => by simp [splitDot]
  | c :: rest => by
      by_cases hc : c = '.'
      · simp [splitDot, hc]
      · simp only [splitDot, if_neg hc]
        cases splitDot rest with
        | nil => simp
        | cons a l => simp

theorem parts_of_goodFrag (a : Str) (h : goodFrag a) :
    splitDot (replaceDD a) ≠ [] ∧ ∀ p ∈ splitDot (replaceDD a), goodPart p := by
  obtain ⟨k, segs, hne, hsegs, rfl⟩ := h
  obtain ⟨s₁, srest, rfl⟩ : ∃ s rest, segs = s :: rest := by
    cases segs with
    | nil => exact absurd rfl hne
    | cons s rest => exact ⟨s, rest, rfl⟩
  have hs₁ := hsegs s₁ (by simp)
  have hhead : (joinDot (s₁ :: srest)).head? ≠ some '.' := by
    rw [joinDot_head? s₁ srest hs₁.1]
    cases s₁ with
    | nil => exact absurd rfl hs₁.1
    | cons c s' =>
        have := (hs₁.2 c (by simp)).1
        simpa using this
  rw [replaceDD_markers k _ hhead, replaceDD_joinDot _ hsegs]
  have hsplit : splitDot (joinDot (s₁ :: srest)) = s₁ :: srest :=
    splitDot_joinDot _ (by simp) (fun u hu c hc => ((hsegs u hu).2 c hc).1)
  rw [splitDot_dotfree_append _ _ s₁ srest (by simp) hsplit]
  refine ⟨by simp, ?_⟩
  intro p hp
  rcases List.mem_cons.mp hp with h1 | h1
  · exact ⟨k, s₁, hs₁, h1⟩
  · exact ⟨0, p, hsegs p (by simp [h1]), by simp⟩

/-- C2 counterexample: `get_normalized_path ["a..b"]` succeeds and returns
`"a@b"`: the reserved marker character remains in the result, because
`replace("..", "@")` also rewrites a `..` that sits between two identifier
characters, and the resulting interior `@` is never stripped by the
normalization loop, which only looks at leading markers. -/
theorem get_normalized_path_marker_leak :
    get_normalized_path [pstr "a..b"] = Except.ok (pstr "a@b") ∧
    '@' ∈ pstr "a@b" :=
  ⟨rfl, by decide⟩

/-- C2 (amended): for a nonempty fragment list in which every fragment is a
run of leading `..` markers followed by a nonempty dot-separated list of
identifier-like segments, a successful `get_normalized_path` returns a
canonical path: nonempty, not starting or ending with the separator, free of
the marker character, with every segment nonempty. -/
theorem get_normalized_path_canonical (args : List Str) (r : Str)
    (hne : args ≠ []) (hfrags : ∀ a ∈ args, goodFrag a)
    (h : get_normalized_path args = Except.ok r) : isCanonicalPath r := by
  unfold get_normalized_path at h
  by_cases h1 : ∃ a ∈ args, '@' ∈ a
  · rw [if_pos h1] at h
    exact absurd h (by simp)
  rw [if_neg h1] at h
  by_cases h2 : [] ∈ pathPartsOf args
  · rw [if_pos h2] at h
    exact absurd h (by simp)
  rw [if_neg h2] at h
  cases hl : normLoop (pathPartsOf args) [] with
  | none =>
      rw [hl] at h
      exact absurd h (by simp)
  | some stack =>
      rw [hl] at h
      have hr : joinDot stack.reverse = r := by simpa using h
      have hparts : ∀ p ∈ pathPartsOf args, goodPart p := by
        intro p hp
        rw [pathPartsOf, List.mem_flatMap] at hp
        obtain ⟨a, ha, hpa⟩ := hp
        exact (parts_of_goodFrag a (hfrags a ha)).2 p hpa
      have hgood := normLoop_good (pathPartsOf args) [] hparts (by simp) stack hl
      have hstackne : stack ≠ [] := by
        intro hempty
        have hpe := (hgood.2 hempty).1
        cases args with
        | nil => exact hne rfl
        | cons a args' =>
            rw [pathPartsOf, List.flatMap_cons] at hpe
            exact List.append_ne_nil_of_left_ne_nil
              (splitDot_ne_nil (replaceDD a)) _ hpe
      rw [← hr]
      exact joinDot_canonical stack.reverse (by simpa using hstackne)
        (fun s hs => hgood.1 s (List.mem_reverse.mp hs))

/-- Closed instance of the amended C2 at `["a.b", "..c"]`, whose normalized
form is the canonical path `"a.c"`. -/
theorem get_normalized_path_canonical_witness : isCanonicalPath (pstr "a.c") :=
  get_normalized_path_canonical [pstr "a.b", pstr "..c"] (pstr "a.c")
    (by decide)
    (by
      intro a ha
      simp only [List.mem_cons, List.not_mem_nil, or_false] at ha
      rcases ha with h | h
      · exact ⟨0, [pstr "a", pstr "b"], by decide, by decide, by rw [h]; rfl⟩
      · exact ⟨1, [pstr "c"], by decide, by decide, by rw [h]; rfl⟩)
    rfl

/-- Pop-underflow on the unreduced parts, tracked by stack depth alone: each
part requests `leadMarkers` pops and then pushes one segment; underflow is a
pop requested at depth 0. -/
def popsUnderflow : List Str → Nat → Bool
  | [], _ => false
  | p :: rest, d =>
      if d < leadMarkers p then true
      else popsUnderflow rest (d - leadMarkers p + 1)

theorem normLoop_none_iff (parts : List Str) : ∀ stack : List Str,
    normLoop parts stack = none ↔ popsUnderflow parts stack.length = true := by
  induction parts with
  | nil => intro stack; simp [normLoop, popsUnderflow]
  | cons p rest ih =>
      intro stack
      rw [normLoop, stripMarkers_eq]
      by_cases hm : stack.length < leadMarkers p
      · rw [if_pos hm]
        simp [popsUnderflow, hm]
      · rw [if_neg hm]
        show normLoop rest (p.drop (leadMarkers p) :: stack.drop (leadMarkers p)) = none ↔ _
        rw [ih]
        rw [show popsUnderflow (p :: rest) stack.length =
          popsUnderflow rest (stack.length - leadMarkers p + 1) from by
            simp [popsUnderflow, hm]]
        simp [List.length_drop]

/-- C5: `get_normalized_path` fails precisely when a fragment contains the
reserved marker character, when an empty segment occurs among the unreduced
parts (each fragment with `..` collapsed to a marker, then split on `.`), or
when a relative pop is requested with an empty working stack; on all other
inputs it succeeds. -/
theorem get_normalized_path_error_iff (args : List Str) :
    (∃ e, get_normalized_path args = Except.error e) ↔
      ((∃ a ∈ args, '@' ∈ a) ∨ [] ∈ pathPartsOf args ∨
        popsUnderflow (pathPartsOf args) 0 = true) := by
  unfold get_normalized_path
  by_cases h1 : ∃ a ∈ args, '@' ∈ a
  · simp [h1]
  rw [if_neg h1]
  by_cases h2 : [] ∈ pathPartsOf args
  · simp [h1, h2]
  rw [if_neg h2]
  cases hl : normLoop (pathPartsOf args) [] with
  | none =>
      have hu := (normLoop_none_iff (pathPartsOf args) []).mp hl
      simp only [List.length_nil] at hu
      simp [h1, h2, hu]
  | some stack =>
      have hu : ¬popsUnderflow (pathPartsOf args) 0 = true := by
        intro hc
        have := (normLoop_none_iff (pathPartsOf args) []).mpr (by simpa using hc)
        rw [hl] at this
        exact absurd this (by simp)
      simp [h1, h2, hu]

/-- A nested Python dict value: a leaf or a dict, the dict given as an ordered
association list (Python dicts preserve insertion order and cannot hold
duplicate keys). -/
inductive NMap (α : Type) where
  | leaf : α → NMap α
  | dict : List (Str × NMap α) → NMap α

instance {α : Type} : Nonempty (NMap α) := ⟨NMap.dict []⟩

/-- The per-entry loop of `flatten_keys`: a dict-valued entry contributes its
recursively flattened keys prefixed by the key and a separator, any other
entry contributes its key alone. -/
def flattenKeysEntries {α : Type} : List (Str × NMap α) → List Str
  | [] => []
  | (k, NMap.dict m) :: rest =>
      (flattenKeysEntries m).map (fun x => k ++ '.' :: x) ++ flattenKeysEntries rest
  | (k, NMap.leaf _) :: rest => k :: flattenKeysEntries rest

/-- `flatten_keys` of utils.py: a non-dict input yields the empty list. -/
def flatten_keys {α : Type} : NMap α → List Str
  | NMap.dict l => flattenKeysEntries l
  | NMap.leaf _ => []

/-- `d[p]` on the modelled dict: first entry with the given key, as in a
Python dict (keys are unique there, so first = only). -/
def lookupK {α : Type} : List (Str × NMap α) → Str → Option (NMap α)
  | [], _ => none
  | (k, v) :: rest, key => if key = k then some v else lookupK rest key

/-- The two failure modes of `get_by_path`: the caught-and-reraised KeyError,
together with the diagnostic it prints (the requested path and the flattened
keys of the dict reached so far), and the TypeError raised by indexing a
non-dict value, which the function does not catch and which carries no
diagnostics. -/
inductive PathErr where
  | notFound : Str → List Str → PathErr
  | typeErr : PathErr

/-- The `for p in path.split('.')` loop of `get_by_path`: `d` is the value
reached so far. -/
def walkPath {α : Type} : NMap α → Str → List Str → Except PathErr (NMap α)
  | d, _, [] => Except.ok d
  | NMap.dict l, path, p :: rest =>
      match lookupK l p with
      | some v => walkPath v path rest
      | none => Except.error (PathErr.notFound path (flatten_keys (NMap.dict l)))
  | NMap.leaf _, _, _ :: _ => Except.error PathErr.typeErr

/-- `get_by_path` of utils.py. -/
def get_by_path {α : Type} (d : NMap α) (path : Str) : Except PathErr (NMap α) :=
  walkPath d path (splitDot path)

/-- Segment-by-segment indexing, following the claim's words: split the path
on the separator and index into the mapping segment by segment, with every
intermediate value a mapping containing the next segment. -/
def indexSegs {α : Type} : NMap α → List Str → Option (NMap α)
  | d, [] => some d
  | NMap.dict l, p :: rest =>
      match lookupK l p with
      | some v => indexSegs v rest
      | none => none
  | NMap.leaf _, _ :: _ => none

theorem walkPath_of_indexSegs {α : Type} : ∀ (segs : List Str) (d : NMap α)
    (q : Str) (v : NMap α), indexSegs d segs = some v →
    walkPath d q segs = Except.ok v := by
  intro segs
  induction segs with
  | nil =>
      intro d q v h
      have : d = v := by simpa [indexSegs] using h
      simp [walkPath, this]
  | cons p rest ih =>
      intro d q v h
      cases d with
      | leaf a => exact absurd h (by simp [indexSegs])
      | dict l =>
          rw [indexSegs] at h
          cases hk : lookupK l p with
          | none => rw [hk] at h; exact absurd h (by simp)
          | some w =>
              rw [hk] at h
              rw [walkPath, hk]
              exact ih w q v h

/-- C6: whenever segment-by-segment indexing succeeds (every prefix of the
path reaches a mapping containing the next segment), `get_by_path` returns
exactly the value so reached; the embedding is a pure function, so the root
mapping is left unchanged. -/
theorem get_by_path_resolves {α : Type} (d : NMap α) (path : Str) (v : NMap α)
    (h : indexSegs d (splitDot path) = some v) :
    get_by_path d path = Except.ok v :=
  walkPath_of_indexSegs (splitDot path) d path v h

/-- Closed instance of C6 at the spec's example:
`getByPath({"a":{"b":{"c":5}}}, "a.b.c") == 5`. -/
theorem get_by_path_resolves_witness :
    get_by_path
      (NMap.dict [(pstr "a", NMap.dict [(pstr "b",
        NMap.dict [(pstr "c", NMap.leaf (5 : Int))])])])
      (pstr "a.b.c") = Except.ok (NMap.leaf 5) :=
  get_by_path_resolves _ _ _ rfl

/-- C7: `flatten_keys` emits, for each entry, the key alone when the value is
a leaf and the key-prefixed recursive paths when the value is a dict:
`{"a":1,"b":{"x":2,"y":3}}` yields exactly `["a","b.x","b.y"]` (in insertion
order, hence exactly the set `{"a","b.x","b.y"}`), and a non-dict input
yields the empty list rather than an error. -/
theorem flatten_keys_example :
    flatten_keys (NMap.dict [(pstr "a", NMap.leaf (1 : Int)),
      (pstr "b", NMap.dict [(pstr "x", NMap.leaf 2), (pstr "y", NMap.leaf 3)])])
      = [pstr "a", pstr "b.x", pstr "b.y"] ∧
    ∀ (α : Type) (a : α), flatten_keys (NMap.leaf a) = [] := by
  refine ⟨?_, fun α a => rfl⟩
  simp only [flatten_keys, flattenKeysEntries, List.map_cons, List.map_nil]
  decide

theorem walkPath_notFound {α : Type} : ∀ (pre : List Str) (d : NMap α)
    (q k : Str) (rest : List Str) (l : List (Str × NMap α)),
    indexSegs d pre = some (NMap.dict l) → lookupK l k = none →
    walkPath d q (pre ++ k :: rest) =
      Except.error (PathErr.notFound q (flatten_keys (NMap.dict l))) := by
  intro pre
  induction pre with
  | nil =>
      intro d q k rest l hidx hmiss
      have hd : d = NMap.dict l := by simpa [indexSegs] using hidx
      subst hd
      rw [List.nil_append, walkPath, hmiss]
  | cons p pre' ih =>
      intro d q k rest l hidx hmiss
      cases d with
      | leaf a => exact absurd hidx (by simp [indexSegs])
      | dict l0 =>
          rw [indexSegs] at hidx
          cases hk : lookupK l0 p with
          | none => rw [hk] at hidx; exact absurd hidx (by simp)
          | some w =>
              rw [hk] at hidx
              rw [List.cons_append, walkPath, hk]
              exact ih w q k rest l hidx hmiss

/-- C3 counterexample: on `root = {"a":{"b":1},"x":2}` and path `"a.c"`,
`get_by_path` fails reporting the valid paths of the *intermediate* dict
reached at the failing step (`["b"]`), not `flatten_keys(root)`, which is
`["a.b","x"]`. -/
theorem get_by_path_diag_not_root :
    get_by_path
      (NMap.dict [(pstr "a", NMap.dict [(pstr "b", NMap.leaf (1 : Int))]),
        (pstr "x", NMap.leaf 2)]) (pstr "a.c")
      = Except.error (PathErr.notFound (pstr "a.c") [pstr "b"]) ∧
    flatten_keys
      (NMap.dict [(pstr "a", NMap.dict [(pstr "b", NMap.leaf (1 : Int))]),
        (pstr "x", NMap.leaf 2)])
      = [pstr "a.b", pstr "x"] ∧
    [pstr "b"] ≠ [pstr "a.b", pstr "x"] := by
  refine ⟨?_, ?_, by decide⟩
  · have h : get_by_path
        (NMap.dict [(pstr "a", NMap.dict [(pstr "b", NMap.leaf (1 : Int))]),
          (pstr "x", NMap.leaf 2)]) (pstr "a.c")
        = Except.error (PathErr.notFound (pstr "a.c")
            (flatten_keys (NMap.dict [(pstr "b", NMap.leaf (1 : Int))]))) := rfl
    rw [h]
    simp only [flatten_keys, flattenKeysEntries]
  · simp only [flatten_keys, flattenKeysEntries, List.map_cons, List.map_nil]
    decide

/-- C3 (amended): when a segment of the path is missing from the mapping
reached at its step (all earlier steps having passed through mappings),
`get_by_path` fails with the KeyError diagnostic carrying the full requested
path and the flattened valid paths of the mapping reached at the failing
step — `flatten_keys` of the last successfully reached value, not of the
root; for the spec's example `getByPath({"a":{"b":{}}}, "a.b.c")` the two
coincide and the reported valid-path list is empty. -/
theorem get_by_path_notFound_diag {α : Type} (root : NMap α) (path : Str)
    (pre : List Str) (k : Str) (rest : List Str) (l : List (Str × NMap α))
    (hsplit : splitDot path = pre ++ k :: rest)
    (hidx : indexSegs root pre = some (NMap.dict l))
    (hmiss : lookupK l k = none) :
    get_by_path root path =
      Except.error (PathErr.notFound path (flatten_keys (NMap.dict l))) := by
  rw [get_by_path, hsplit]
  exact walkPath_notFound pre root path k rest l hidx hmiss

/-- Closed instance of the amended C3 at the spec's example
`getByPath({"a":{"b":{}}}, "a.b.c")`: the reported valid-path list is empty. -/
theorem get_by_path_notFound_diag_witness :
    get_by_path
      (NMap.dict [(pstr "a", NMap.dict [(pstr "b",
        NMap.dict ([] : List (Str × NMap Int)))])]) (pstr "a.b.c")
      = Except.error (PathErr.notFound (pstr "a.b.c") []) := by
  have h := get_by_path_notFound_diag
    (NMap.dict [(pstr "a", NMap.dict [(pstr "b",
      NMap.dict ([] : List (Str × NMap Int)))])]) (pstr "a.b.c")
    [pstr "a", pstr "b"] (pstr "c") [] [] rfl rfl rfl
  rw [h]
  simp only [flatten_keys, flattenKeysEntries]

theorem walkPath_leaf_intermediate {α : Type} : ∀ (pre : List Str) (d : NMap α)
    (q k : Str) (rest : List Str) (a : α),
    indexSegs d pre = some (NMap.leaf a) →
    walkPath d q (pre ++ k :: rest) = Except.error PathErr.typeErr := by
  intro pre
  induction pre with
  | nil =>
      intro d q k rest a hidx
      have hd : d = NMap.leaf a := by simpa [indexSegs] using hidx
      subst hd
      rw [List.nil_append, walkPath]
  | cons p pre' ih =>
      intro d q k rest a hidx
      cases d with
      | leaf b => exact absurd hidx (by simp [indexSegs])
      | dict l0 =>
          rw [indexSegs] at hidx
          cases hk : lookupK l0 p with
          | none => rw [hk] at hidx; exact absurd hidx (by simp)
          | some w =>
              rw [hk] at hidx
              rw [List.cons_append, walkPath, hk]
              exact ih w q k rest a hidx

/-- C10: when an intermediate segment of a multi-segment path resolves to a
leaf before the final segment, `get_by_path` fails with the uncaught
TypeError, which is distinct from the KeyError diagnostic and carries no
valid-path list: the KeyError branch is reached only when a segment is
missing from a mapping. -/
theorem get_by_path_leaf_intermediate {α : Type} (root : NMap α) (path : Str)
    (pre : List Str) (k : Str) (rest : List Str) (a : α)
    (hsplit : splitDot path = pre ++ k :: rest)
    (hidx : indexSegs root pre = some (NMap.leaf a)) :
    get_by_path root path = Except.error PathErr.typeErr ∧
    ∀ (q : Str) (ks : List Str), PathErr.typeErr ≠ PathErr.notFound q ks := by
  refine ⟨?_, fun q ks => by simp⟩
  rw [get_by_path, hsplit]
  exact walkPath_leaf_intermediate pre root path k rest a hidx

/-- Closed instance of C10 at `getByPath({"a":1}, "a.b")`. -/
theorem get_by_path_leaf_intermediate_witness :
    get_by_path (NMap.dict [(pstr "a", NMap.leaf (1 : Int))]) (pstr "a.b")
      = Except.error PathErr.typeErr :=
  (get_by_path_leaf_intermediate
    (NMap.dict [(pstr "a", NMap.leaf (1 : Int))]) (pstr "a.b")
    [pstr "a"] (pstr "b") [] 1 rfl rfl).1

/-- A nested mapping as a Python dict whose keys contain no separator: at
every level each key is `.`-free and occurs once (a Python dict cannot hold
duplicate keys). -/
def wfEntries {α : Type} : List (Str × NMap α) → Bool
  | [] => true
  | (k, NMap.dict m) :: rest =>
      decide ('.' ∉ k) && decide (k ∉ rest.map Prod.fst) &&
        wfEntries m && wfEntries rest
  | (k, NMap.leaf _) :: rest =>
      decide ('.' ∉ k) && decide (k ∉ rest.map Prod.fst) && wfEntries rest

theorem flattenKeysEntries_head {α : Type} : ∀ l : List (Str × NMap α),
    wfEntries l = true → ∀ p ∈ flattenKeysEntries l,
    ∃ (q : Str) (segs : List Str), splitDot p = q :: segs ∧ q ∈ l.map Prod.fst := by
  intro l
  induction l using flattenKeysEntries.induct with
  | case1 => simp [flattenKeysEntries]
  | case2 k m rest ihm ihr =>
      intro hwf p hp
      simp only [wfEntries, Bool.and_eq_true, decide_eq_true_eq] at hwf
      obtain ⟨⟨⟨hkdot, _⟩, _⟩, hwfr⟩ := hwf
      rw [flattenKeysEntries] at hp
      rcases List.mem_append.mp hp with h1 | h1
      · obtain ⟨x, _, rfl⟩ := List.mem_map.mp h1
        refine ⟨k, splitDot x, ?_, by simp⟩
        exact splitDot_dotfree_dot k x (fun c hc hceq => hkdot (hceq ▸ hc))
      · obtain ⟨q, segs, hsp, hq⟩ := ihr hwfr p h1
        exact ⟨q, segs, hsp, by simp [hq]⟩
  | case3 k a rest ihr =>
      intro hwf p hp
      simp only [wfEntries, Bool.and_eq_true, decide_eq_true_eq] at hwf
      obtain ⟨⟨hkdot, _⟩, hwfr⟩ := hwf
      rw [flattenKeysEntries] at hp
      rcases List.mem_cons.mp hp with h1 | h1
      · subst h1
        refine ⟨p, [], ?_, by simp⟩
        exact splitDot_dotfree p (fun c hc hceq => hkdot (hceq ▸ hc))
      · obtain ⟨q, segs, hsp, hq⟩ := ihr hwfr p h1
        exact ⟨q, segs, hsp, by simp [hq]⟩

theorem indexSegs_of_flattenKeysEntries {α : Type} : ∀ l : List (Str × NMap α),
    wfEntries l = true → ∀ p ∈ flattenKeysEntries l,
    ∃ a : α, indexSegs (NMap.dict l) (splitDot p) = some (NMap.leaf a) := by
  intro l
  induction l using flattenKeysEntries.induct with
  | case1 => simp [flattenKeysEntries]
  | case2 k m rest ihm ihr =>
      intro hwf p hp
      simp only [wfEntries, Bool.and_eq_true, decide_eq_true_eq] at hwf
      obtain ⟨⟨⟨hkdot, hknotin⟩, hwfm⟩, hwfr⟩ := hwf
      rw [flattenKeysEntries] at hp
      rcases List.mem_append.mp hp with h1 | h1
      · obtain ⟨x, hx, rfl⟩ := List.mem_map.mp h1
        rw [splitDot_dotfree_dot k x (fun c hc hceq => hkdot (hceq ▸ hc))]
        obtain ⟨a, ha⟩ := ihm hwfm x hx
        refine ⟨a, ?_⟩
        simp only [indexSegs, lookupK, if_pos rfl]
        exact ha
      · obtain ⟨q, segs, hsp, hq⟩ := flattenKeysEntries_head rest hwfr p h1
        have hne : q ≠ k := fun he => hknotin (he ▸ hq)
        obtain ⟨a, ha⟩ := ihr hwfr p h1
        refine ⟨a, ?_⟩
        rw [hsp] at ha ⊢
        simp only [indexSegs, lookupK, if_neg hne] at ha ⊢
        exact ha
  | case3 k b rest ihr =>
      intro hwf p hp
      simp only [wfEntries, Bool.and_eq_true, decide_eq_true_eq] at hwf
      obtain ⟨⟨hkdot, hknotin⟩, hwfr⟩ := hwf
      rw [flattenKeysEntries] at hp
      rcases List.mem_cons.mp hp with h1 | h1
      · subst h1
        rw [splitDot_dotfree p (fun c hc hceq => hkdot (hceq ▸ hc))]
        exact ⟨b, by simp [indexSegs, lookupK]⟩
      · obtain ⟨q, segs, hsp, hq⟩ := flattenKeysEntries_head rest hwfr p h1
        have hne : q ≠ k := fun he => hknotin (he ▸ hq)
        obtain ⟨a, ha⟩ := ihr hwfr p h1
        refine ⟨a, ?_⟩
        rw [hsp] at ha ⊢
        simp only [indexSegs, lookupK, if_neg hne] at ha ⊢
        exact ha

/-- C9: in a nested mapping whose keys contain no separator character (and,
as in any Python dict, are unique at each level), every path listed by
`flatten_keys` resolves under `get_by_path` to a leaf, i.e. `flatten_keys`
enumerates only leaf-reachable canonical paths. -/
theorem flatten_keys_paths_resolve {α : Type} (l : List (Str × NMap α))
    (p : Str) (hwf : wfEntries l = true)
    (hp : p ∈ flatten_keys (NMap.dict l)) :
    ∃ a : α, get_by_path (NMap.dict l) p = Except.ok (NMap.leaf a) := by
  obtain ⟨a, ha⟩ := indexSegs_of_flattenKeysEntries l hwf p
    (by simpa [flatten_keys] using hp)
  exact ⟨a, walkPath_of_indexSegs _ _ _ _ ha⟩

/-- Closed instance of C9: in `{"a":1,"b":{"x":2,"y":3}}` the flattened key
`"b.x"` resolves to a leaf. -/
theorem flatten_keys_paths_resolve_witness :
    ∃ a : Int, get_by_path
      (NMap.dict [(pstr "a", NMap.leaf (1 : Int)),
        (pstr "b", NMap.dict [(pstr "x", NMap.leaf 2), (pstr "y", NMap.leaf 3)])])
      (pstr "b.x") = Except.ok (NMap.leaf a) :=
  flatten_keys_paths_resolve _ (pstr "b.x")
    (by simp only [wfEntries]; decide)
    (by
      simp only [flatten_keys, flattenKeysEntries, List.map_cons, List.map_nil]
      decide)

end Brainstorm
